import Mathlib

/-!
Verification of the feedback-arc-set searcher (generator/supervisor system).

This file gives a shallow embedding, in Lean 4, of the parts of the C
sources (`fb_arc_set.c`, `generator.c`, `supervisor.c`, `structs.h`) that the
checked properties are about, and proves or refutes each property over that
embedding.  Machine integers of the C code are modelled as `Nat`: every value
involved (vertex labels, edge counts, feedback-arc-set sizes, semaphore
values, struct sizes) is non-negative and far below any overflow boundary in
every reachable state, so the `Nat` model is faithful.
-/

namespace FbArc

/-! ### Constants from structs.h -/

/-- Constant `BSEARCH_PROMPT_SIZE` from structs.h: out-degree at which
`graph_has_edge` switches from a linear scan to sort + binary search. -/
def BSEARCH_PROMPT_SIZE : Nat := 15

/-- Constant `MAX_VIABLE_COUNT` from structs.h: maximal size of a feedback
arc set that a generator will publish. -/
def MAX_VIABLE_COUNT : Nat := 8

/-- Constant `BUF_SIZE` from structs.h: number of slots of the shared ring
buffer, and also the literal byte count passed to `ftruncate` by the
supervisor. -/
def BUF_SIZE : Nat := 8

/-- Constant `INT16_MAX`, the initial value the supervisor stores into the
shared `best_fb_size` field (supervisor.c line 147). -/
def INT16_MAX : Nat := 32767

/-! ### The generator's publication step (generator.c lines 257-268)

After a full (non-aborted) scan the generator holds `fb_size = calc_fb_size`
and runs:

    if (best_fb_size > fb_size && fb_size <= MAX_VIABLE_COUNT) {
        if (fb_size > ring_buf->best_fb_size) {
            best_fb_size = ring_buf->best_fb_size;
            continue;
        }
        best_fb_size = fb_size;
        ... build payload and publish ...
    }

`publishStep bestLocal fbSize sharedBest` returns the decision taken and the
new value of the generator's local `best_fb_size`.  `sharedBest` is the value
read from `ring_buf->best_fb_size` at line 263, i.e. the re-read of the
shared best that happens before the payload is built. -/

/-- Decision taken by the generator's publication step: publish the candidate
(and set the local best to its size), skip and adopt the shared best as the
local best, or do nothing because the candidate is not a local improvement or
is too large to store. -/
inductive PubDecision where
  | publish (newBest : Nat)
  | skipAdopt (newBest : Nat)
  | notImproving
deriving DecidableEq, Repr

/-- Embedding of generator.c lines 257-268: the decision whether to publish a
candidate of size `fbSize` given the local best `bestLocal` and the value
`sharedBest` re-read from the shared `best_fb_size` field. -/
def publishStep (bestLocal fbSize sharedBest : Nat) : PubDecision :=
  if bestLocal > fbSize ∧ fbSize ≤ MAX_VIABLE_COUNT then
    if fbSize > sharedBest then
      PubDecision.skipAdopt sharedBest
    else
      PubDecision.publish fbSize
  else
    PubDecision.notImproving

/-! ### Semaphore wait/post failure handling (fb_arc_set.c lines 270-288)

    void wait_sem(sem_t *sem) {
        if (sem_wait(sem) == -1) {
            if (errno == EINTR) return;
            fprintf(stderr, ...); exit(EXIT_FAILURE);
        }
    }
    void post_sem(sem_t *sem) {
        if (sem_post(sem) == -1) {
            fprintf(stderr, ...); exit(EXIT_FAILURE);
        }
    }

The outcome of the underlying OS call is modelled as success or failure with
an errno; what the wrapper does with it is modelled as one of: return control
to the caller (who then continues on the path after the wait/post), re-issue
the wait, or terminate the process. -/

/-- Errno values relevant to the semaphore wrappers: `EINTR` (interrupted
blocking call) versus any other error cause. -/
inductive Errno where
  | eintr
  | otherErr
deriving DecidableEq, Repr

/-- Outcome of the underlying `sem_wait`/`sem_post` OS call. -/
inductive SemCallResult where
  | ok
  | err (e : Errno)
deriving DecidableEq, Repr

/-- What the wrapper does after the OS call: give control back to the caller,
re-issue the wait, or exit the process fatally. -/
inductive SemAction where
  | proceed
  | retryWait
  | fatalExit
deriving DecidableEq, Repr

/-- Embedding of `wait_sem` (fb_arc_set.c lines 270-279): on success the
caller proceeds; on failure with `errno == EINTR` the function returns, so
the caller also proceeds (there is no retry loop in the source); on any other
failure the process exits. -/
def wait_sem (r : SemCallResult) : SemAction :=
  match r with
  | SemCallResult.ok => SemAction.proceed
  | SemCallResult.err Errno.eintr => SemAction.proceed
  | SemCallResult.err _ => SemAction.fatalExit

/-- Embedding of `post_sem` (fb_arc_set.c lines 281-288): any failure is
fatal. -/
def post_sem (r : SemCallResult) : SemAction :=
  match r with
  | SemCallResult.ok => SemAction.proceed
  | SemCallResult.err _ => SemAction.fatalExit

/-! ### Stop-flag handling (generator.c lines 73-76, 319-326; supervisor.c
lines 71-75)

Each process has a process-local `volatile sig_atomic_t quit`, and the shared
ring buffer holds a shared `quit` field.  The generator's `signal_handler`
sets only the local flag; the supervisor's sets both. -/

/-- The stop flags visible to one process: its process-local `quit` variable
and the `quit` field of the shared ring buffer. -/
structure StopFlags where
  localQuit : Nat
  sharedQuit : Nat
deriving DecidableEq, Repr

/-- Embedding of `signal_handler` in generator.c (lines 73-76): sets only the
process-local `quit` flag. -/
def generator_signal_handler (s : StopFlags) : StopFlags :=
  { s with localQuit := 1 }

/-- Embedding of `signal_handler` in supervisor.c (lines 71-75): sets the
process-local `quit` flag and the shared `quit` field of the ring buffer. -/
def supervisor_signal_handler (_s : StopFlags) : StopFlags :=
  { localQuit := 1, sharedQuit := 1 }

/-- Embedding of the generator's acyclic check after a publication
(generator.c lines 319-326): if the published candidate has size 0 and the
shared best reads 0, call the generator's `signal_handler`, else leave the
flags alone. -/
def generator_acyclic_check (fbSize sharedBest : Nat) (s : StopFlags) : StopFlags :=
  if fbSize = 0 ∧ sharedBest = 0 then generator_signal_handler s else s

/-! ### The generator's ordering scan (generator.c lines 224-250)

For a shuffled ordering `vertex_set` the generator runs

    for (int i = 1, edge_set_i = 0; i < num_v; ++i) {
        for (int j = 0; j < i; ++j)
            if (graph_has_edge(g, vertex_set[i], vertex_set[j])) { record; ++calc_fb_size; }
        if (calc_fb_size >= best_fb_size) { better_sol_ex = true; break; }
    }
    if (better_sol_ex) { better_sol_ex = false; continue; }
    fb_size = calc_fb_size;
    if (best_fb_size > fb_size && fb_size <= MAX_VIABLE_COUNT) { ... publish ... }

The graph's edge test is abstracted as a boolean function `E` (the graph is
read-only during the search), and the ordering as the list `ord` of vertex
labels.  `rowHits E ord i` is the number of back-edge hits contributed by
outer index `i`; the early-abort check runs once after each outer index. -/

/-- Number of inner-loop hits at outer index `i`: the count of `j < i` with
an edge from `ord[i]` to `ord[j]`. -/
def rowHits (E : Nat → Nat → Bool) (ord : List Nat) (i : Nat) : Nat :=
  ((List.range i).filter (fun j => E (ord.getD i 0) (ord.getD j 0))).length

/-- The outer-loop index sequence of the scan: `i = 1, ..., num_v - 1`. -/
def outerIdx (ord : List Nat) : List Nat := List.range' 1 (ord.length - 1)

/-- The scan with the early abort of generator.c lines 240-244: process the
remaining outer indices with accumulated count `acc`; after each outer index,
if the count has reached the local best `b`, abandon the ordering (`none`);
otherwise return the completed count (`some`). -/
def scanAbortAux (E : Nat → Nat → Bool) (ord : List Nat) (b : Nat) :
    List Nat → Nat → Option Nat
  | [], acc => some acc
  | i :: rest, acc =>
    if b ≤ acc + rowHits E ord i then none
    else scanAbortAux E ord b rest (acc + rowHits E ord i)

/-- The full pruned scan of one ordering: `none` when the early abort fired
(the iteration is skipped via `continue`), `some k` when the scan completed
with back-edge count `k`. -/
def prunedScan (E : Nat → Nat → Bool) (ord : List Nat) (b : Nat) : Option Nat :=
  scanAbortAux E ord b (outerIdx ord) 0

/-- The back-edge count of the exhaustive scan (no early abort). -/
def fullCount (E : Nat → Nat → Bool) (ord : List Nat) : Nat :=
  ((outerIdx ord).map (rowHits E ord)).sum

/-- Publish decision of the code as written: an aborted scan is skipped, a
completed scan of count `k` attempts publication iff `k < b` and
`k ≤ MAX_VIABLE_COUNT` (generator.c line 257). -/
def decidePruned (E : Nat → Nat → Bool) (ord : List Nat) (b : Nat) : Bool :=
  match prunedScan E ord b with
  | none => false
  | some k => decide (k < b) && decide (k ≤ MAX_VIABLE_COUNT)

/-- Publish decision of the exhaustive reference scan: scan all pairs, then
compare the full count against `b` and the capacity cap. -/
def decideFull (E : Nat → Nat → Bool) (ord : List Nat) (b : Nat) : Bool :=
  decide (fullCount E ord < b) && decide (fullCount E ord ≤ MAX_VIABLE_COUNT)

/-- The list of back-edges collected by the exhaustive pair scan (generator.c
lines 224-235): for every pair of positions `j < i` of the ordering with an
edge from `ord[i]` to `ord[j]`, the pair `(ord[i], ord[j])`. -/
def backEdges (E : Nat → Nat → Bool) (ord : List Nat) : List (Nat × Nat) :=
  (List.range ord.length).flatMap (fun i =>
    ((List.range i).filter (fun j => E (ord.getD i 0) (ord.getD j 0))).map
      (fun j => (ord.getD i 0, ord.getD j 0)))

/-! ### The supervisor's consumer step (supervisor.c lines 177-191)

After draining one `Fb_arc_set` from the ring buffer the supervisor runs:

    if (fb_arc_set.num_e == 0) {
        fprintf(stdout, "... The graph is acyclic!\n");
        ring_buf->acyclic = true;
        signal_handler(SIGTERM);
    } else if (fb_arc_set.num_e < ring_buf->best_fb_size) {
        ring_buf->best_fb_size = fb_arc_set.num_e;
        print_solution(...);
    }

The shared `best_fb_size` is read and written only here (the generators only
read it), so the consumer's handling of one drained candidate is a pure
function of the current best value and the candidate. -/

/-- A drained candidate: its edge count and its edge list, mirroring the
`num_e` and `edges` fields of `Fb_arc_set`. -/
structure Candidate where
  num_e : Nat
  edges : List (Nat × Nat)
deriving DecidableEq, Repr

/-- What the supervisor emits for one drained candidate: the distinguished
acyclic event (no edge list), a solution report with its edge count and edge
list, or nothing. -/
inductive SupEvent where
  | acyclicEvent
  | solution (n : Nat) (edges : List (Nat × Nat))
  | noOutput
deriving DecidableEq, Repr

/-- Embedding of supervisor.c lines 177-191: given the current shared
`best_fb_size` and a drained candidate, return the new shared best and the
emitted event. -/
def consumerStep (best : Nat) (c : Candidate) : Nat × SupEvent :=
  if c.num_e = 0 then
    (best, SupEvent.acyclicEvent)
  else if c.num_e < best then
    (c.num_e, SupEvent.solution c.num_e c.edges)
  else
    (best, SupEvent.noOutput)

/-! ### Shared-memory object size versus Buffer size (supervisor.c lines
128-130, fb_arc_set.c lines 330-337, structs.h lines 84-92)

The supervisor calls `truncate_shm(shm_buf_fd, BUF_SIZE)`, i.e. `ftruncate`
with a length of `BUF_SIZE = 8` bytes, and then both the supervisor and every
generator `mmap` `sizeof(Buffer)` bytes of the object.  The byte layout of
the structs is modelled with the standard C layout rules (each field placed
at the next offset aligned to its alignment, struct size rounded up to the
struct's alignment) together with the sizes used on every mainstream ABI the
program targets: `int` and `sig_atomic_t` occupy 4 bytes with alignment 4,
`bool` occupies 1 byte with alignment 1. -/

/-- Round `off` up to the next multiple of the alignment `a`. -/
def alignUp (off a : Nat) : Nat := ((off + a - 1) / a) * a

/-- Size of `struct Edge_s`: two 4-byte ints. -/
def sizeof_Edge : Nat := 8

/-- Offset of the `num_e` field inside `Fb_arc_set`: the `bool written` at
offset 0 occupies 1 byte, padded up to the 4-byte alignment of `int`. -/
def offsetof_num_e : Nat := alignUp 1 4

/-- Offset of the `edges` array inside `Fb_arc_set`. -/
def offsetof_edges : Nat := offsetof_num_e + 4

/-- Size of `Fb_arc_set`: header plus `MAX_VIABLE_COUNT` edges, rounded up to
the struct alignment 4. -/
def sizeof_Fb_arc_set : Nat :=
  alignUp (offsetof_edges + MAX_VIABLE_COUNT * sizeof_Edge) 4

/-- Offset of the `quit` field inside `Buffer`: the `bool acyclic` at offset
0 occupies 1 byte, padded up to the 4-byte alignment of `sig_atomic_t`. -/
def offsetof_quit : Nat := alignUp 1 4

/-- Offset of the `best_fb_size` field inside `Buffer`. -/
def offsetof_best_fb_size : Nat := offsetof_quit + 4

/-- Offset of the `sets` slot array inside `Buffer`. -/
def offsetof_sets : Nat := offsetof_best_fb_size + 4

/-- Size of `Buffer`: header plus `BUF_SIZE` ring-buffer slots, rounded up to
the struct alignment 4. -/
def sizeof_Buffer : Nat :=
  alignUp (offsetof_sets + BUF_SIZE * sizeof_Fb_arc_set) 4

/-- Byte length the supervisor passes to `ftruncate` (supervisor.c line 129):
the literal `BUF_SIZE`, not `sizeof(Buffer)`. -/
def truncate_length : Nat := BUF_SIZE

/-- Byte length both programs pass to `mmap` (supervisor.c line 130,
generator.c line 206): `sizeof(Buffer)`. -/
def mapped_length : Nat := sizeof_Buffer

/-! ### The directed graph (structs.h lines 37-56, fb_arc_set.c lines
139-236)

A vertex's adjacency record `struct successors` holds the successor array
`list`, its used length `d`, its capacity `len` and the flag `is_sorted`.
The array is modelled as a Lean list (so `d` is its length); the capacity
`len` only drives `realloc` and has no observable effect, so it is omitted. -/

/-- Per-vertex successor record, mirroring `struct successors`. -/
structure Successors where
  list : List Nat
  is_sorted : Bool
deriving DecidableEq, Repr

/-- Embedding of the linear-scan branch of `graph_has_edge` (fb_arc_set.c
lines 229-234): walk the successor array and compare each entry with the
target. -/
def linearScan (l : List Nat) (target : Nat) : Bool :=
  match l with
  | [] => false
  | x :: xs => if x = target then true else linearScan xs target

/-- Fuel-bounded binary search over positions of a list, mirroring the C
library `bsearch` with the comparator `cmpfunc` of fb_arc_set.c (ascending
numeric order): search the half-open position interval from `lo` to `hi` of
`arr`, returning whether an element equal to `target` is found.  The fuel
argument only bounds the recursion depth; `hi - lo` units always suffice
because each step halves the interval. -/
def bsearchGo (target : Nat) (arr : List Nat) : Nat → Nat → Nat → Bool
  | 0, _, _ => false
  | fuel + 1, lo, hi =>
    if lo < hi then
      let mid := (lo + hi) / 2
      if target < arr.getD mid 0 then bsearchGo target arr fuel lo mid
      else if arr.getD mid 0 < target then bsearchGo target arr fuel (mid + 1) hi
      else true
    else false

/-- The `bsearch` call of fb_arc_set.c line 221: binary search over the whole
successor array, true iff a matching element was found (non-null result). -/
def bsearchList (target : Nat) (arr : List Nat) : Bool :=
  bsearchGo target arr arr.length 0 arr.length

/-- The in-place `qsort` of fb_arc_set.c line 220 with comparator `cmpfunc`
(ascending numeric order), modelled by insertion sort: on `Nat` keys the
ascending sorted rearrangement of the array is unique up to equal keys, so
any correct sort produces this list. -/
def sortSucc (l : List Nat) : List Nat := List.insertionSort (fun a b => a ≤ b) l

/-- Embedding of `graph_has_edge` (fb_arc_set.c lines 209-236) acting on the
successor record of the source vertex (the only state the function touches).
Returned are: the membership result, the record as left in memory (`qsort`
sorts the array in place; the C code never assigns `is_sorted` in this
function, so the flag comes back unchanged), and whether this call invoked
`qsort`. -/
def graph_has_edge (s : Successors) (target : Nat) : Bool × Successors × Bool :=
  if BSEARCH_PROMPT_SIZE ≤ s.list.length then
    if s.is_sorted then
      (bsearchList target s.list, s, false)
    else
      (bsearchList target (sortSucc s.list),
        { list := sortSucc s.list, is_sorted := s.is_sorted }, true)
  else
    (linearScan s.list target, s, false)

/-- The graph object: vertex count `V` and the adjacency records `alist`
(structs.h lines 37-56).  The edge counter `E` plays no role in the checked
properties and is omitted. -/
structure Graph where
  V : Nat
  alist : List Successors
deriving Repr

/-- Embedding of `graph_create` (fb_arc_set.c lines 139-161): `n` vertices,
each with an empty successor record flagged sorted. -/
def graph_create (n : Nat) : Graph :=
  { V := n, alist := List.replicate n { list := [], is_sorted := true } }

/-- Embedding of `graph_add_edge` (fb_arc_set.c lines 172-189): the four
assertions demand `0 ≤ u < V` and `0 ≤ v < V` (the lower bounds hold
trivially for `Nat`); a failed assertion aborts the process, modelled as
`none`.  Otherwise `v` is appended to `u`'s successor array and the
sortedness flag of that record is cleared. -/
def graph_add_edge (g : Graph) (u v : Nat) : Option Graph :=
  if u < g.V ∧ v < g.V then
    some { g with
      alist := g.alist.set u
        { list := (g.alist.getD u { list := [], is_sorted := true }).list ++ [v],
          is_sorted := false } }
  else
    none

/-! ### The generator's graph construction (generator.c lines 139-187)

The generator first collects the distinct vertex labels of the edge
arguments into `max_set` (each edge contributes its source and then its
target when not already present), creates a graph with that many vertices,
and then adds every edge. -/

/-- One step of the label collection: append the label when not yet
present. -/
def addLabel (acc : List Nat) (l : Nat) : List Nat :=
  if l ∈ acc then acc else acc ++ [l]

/-- Embedding of generator.c lines 141-156: the duplicate-free list of labels
occurring in the edge arguments, in order of first occurrence. -/
def collectLabels (es : List (Nat × Nat)) : List Nat :=
  es.foldl (fun acc e => addLabel (addLabel acc e.1) e.2) []

/-- The vertex count the generator passes to `graph_create` (generator.c
lines 158-165): the number of distinct labels. -/
def numVertices (es : List (Nat × Nat)) : Nat := (collectLabels es).length

/-- Embedding of the edge-insertion loop of generator.c lines 176-182:
add every edge in argument order, aborting at the first failed assertion. -/
def addEdges (g : Graph) : List (Nat × Nat) → Option Graph
  | [] => some g
  | e :: rest =>
    match graph_add_edge g e.1 e.2 with
    | none => none
    | some g2 => addEdges g2 rest

/-- Embedding of the generator's whole graph construction (generator.c lines
139-187): create a graph with one vertex per distinct label of the edge
arguments, then add every edge; `none` models an assertion abort. -/
def buildGraph (es : List (Nat × Nat)) : Option Graph :=
  addEdges (graph_create (numVertices es)) es

end FbArc

namespace FbArc

/-! ## Theorems for claims C1, C2, C3 -/

/-- C1 counterexample: with local best 5, candidate size 3 and shared best 3
(shared best equal to, hence less than or equal to, the candidate size), the
generator publishes the candidate instead of skipping, contradicting the
claim that a candidate whose size equals the shared best is never
published. -/
theorem publishStep_equal_shared_publishes :
    publishStep 5 3 3 = PubDecision.publish 3 ∧
      publishStep 5 3 3 ≠ PubDecision.skipAdopt 3 := by
  constructor
  · rfl
  · decide

/-- C1 amended: for every locally improving candidate (size strictly below
the local best and at most `MAX_VIABLE_COUNT`), the generator re-reads the
shared best; when the shared value is strictly less than the candidate size
it does not publish and adopts the shared value as its new local best, and
when the shared value is greater than or equal to the candidate size
(equality included) it publishes the candidate and sets the local best to the
candidate size. -/
theorem publishStep_shared_recheck (bestLocal fbSize sharedBest : Nat)
    (himpr : fbSize < bestLocal) (hcap : fbSize ≤ MAX_VIABLE_COUNT) :
    (sharedBest < fbSize →
        publishStep bestLocal fbSize sharedBest = PubDecision.skipAdopt sharedBest) ∧
      (fbSize ≤ sharedBest →
        publishStep bestLocal fbSize sharedBest = PubDecision.publish fbSize) := by
  constructor
  · intro hlt
    simp only [publishStep, if_pos (And.intro himpr hcap), if_pos hlt]
  · intro hle
    have hnot : ¬ fbSize > sharedBest := not_lt.mpr hle
    simp only [publishStep, if_pos (And.intro himpr hcap), if_neg hnot]

/-- C1 amended, witness: the theorem applied at local best 5, candidate size
3, shared best 2 (skip-and-adopt case). -/
theorem publishStep_shared_recheck_witness :
    (3 : Nat) < 5 ∧ (3 : Nat) ≤ MAX_VIABLE_COUNT ∧
      publishStep 5 3 2 = PubDecision.skipAdopt 2 :=
  ⟨by decide, by decide,
    (publishStep_shared_recheck 5 3 2 (by decide) (by decide)).1 (by decide)⟩

/-- C2 counterexample: on a wait failure with `errno == EINTR`, `wait_sem`
returns control to the caller (which then proceeds as if the semaphore had
been acquired) instead of re-issuing the wait as the claim states. -/
theorem wait_sem_eintr_no_retry :
    wait_sem (SemCallResult.err Errno.eintr) = SemAction.proceed ∧
      wait_sem (SemCallResult.err Errno.eintr) ≠ SemAction.retryWait := by
  constructor
  · rfl
  · decide

/-- C2 amended: a semaphore wait failure is fatal unless the failure is an
interrupted blocking call (`EINTR`), in which case `wait_sem` returns to the
caller without re-issuing the wait, so the caller proceeds exactly as on a
successful acquisition; semaphore post failures are always fatal. -/
theorem wait_sem_post_sem_failure_modes (e : Errno) (hne : e ≠ Errno.eintr) :
    wait_sem (SemCallResult.err e) = SemAction.fatalExit ∧
      wait_sem (SemCallResult.err Errno.eintr) = SemAction.proceed ∧
      wait_sem (SemCallResult.err Errno.eintr) ≠ SemAction.retryWait ∧
      post_sem (SemCallResult.err e) = SemAction.fatalExit ∧
      post_sem (SemCallResult.err Errno.eintr) = SemAction.fatalExit := by
  cases e with
  | eintr => exact absurd rfl hne
  | otherErr => exact ⟨rfl, rfl, by decide, rfl, rfl⟩

/-- C2 amended, witness: the theorem applied to the non-`EINTR` error
cause. -/
theorem wait_sem_post_sem_failure_modes_witness :
    Errno.otherErr ≠ Errno.eintr ∧
      wait_sem (SemCallResult.err Errno.otherErr) = SemAction.fatalExit :=
  ⟨by decide, (wait_sem_post_sem_failure_modes Errno.otherErr (by decide)).1⟩

/-- C3 counterexample: starting from cleared flags, the generator's signal
handler (the one invoked on the zero-size-candidate path) leaves the shared
`quit` field untouched, while the supervisor's sets it; the generator does
not request stop the same way the coordinator does. -/
theorem generator_stop_not_shared :
    (generator_signal_handler ⟨0, 0⟩).sharedQuit = 0 ∧
      (supervisor_signal_handler ⟨0, 0⟩).sharedQuit = 1 ∧
      generator_signal_handler ⟨0, 0⟩ ≠ supervisor_signal_handler ⟨0, 0⟩ := by
  exact ⟨rfl, rfl, by decide⟩

/-- C3 amended: whenever a worker publishes a zero-edge candidate and reads
the shared best size as zero, it sets only its process-local stop flag; the
shared `quit` field of the ring buffer is left unchanged by this step (global
termination of the other processes instead happens when the coordinator
drains the zero-edge candidate). -/
theorem generator_acyclic_check_local_only (fbSize sharedBest : Nat) (s : StopFlags) :
    (generator_acyclic_check fbSize sharedBest s).sharedQuit = s.sharedQuit ∧
      (fbSize = 0 → sharedBest = 0 →
        (generator_acyclic_check fbSize sharedBest s).localQuit = 1) := by
  constructor
  · by_cases h : fbSize = 0 ∧ sharedBest = 0
    · simp only [generator_acyclic_check, if_pos h, generator_signal_handler]
    · simp only [generator_acyclic_check, if_neg h]
  · intro h0 h1
    simp only [generator_acyclic_check, if_pos (And.intro h0 h1), generator_signal_handler]

/-- C3 amended, witness: the theorem applied at candidate size 0, shared best
0 and cleared flags. -/
theorem generator_acyclic_check_local_only_witness :
    (generator_acyclic_check 0 0 ⟨0, 0⟩).sharedQuit = 0 ∧
      (generator_acyclic_check 0 0 ⟨0, 0⟩).localQuit = 1 :=
  ⟨(generator_acyclic_check_local_only 0 0 ⟨0, 0⟩).1,
    (generator_acyclic_check_local_only 0 0 ⟨0, 0⟩).2 rfl rfl⟩

/-! ## Theorems for claims C8, C9 -/

/-- C8: the shared `best_fb_size` is initialized by the consumer to
`INT16_MAX` and each consumer step leaves it unchanged or decreases it (it is
monotonically non-increasing; in the embedding it is written nowhere else); a
solution is emitted exactly when the drained candidate has a non-zero edge
count strictly smaller than the current best, and a zero-edge candidate
produces the distinguished acyclic event with no edge list and no change to
the best. -/
theorem consumerStep_monotone_emission (best : Nat) (c : Candidate) :
    INT16_MAX = 32767 ∧
      (consumerStep best c).1 ≤ best ∧
      ((∃ n es, (consumerStep best c).2 = SupEvent.solution n es) ↔
        (c.num_e ≠ 0 ∧ c.num_e < best)) ∧
      (c.num_e = 0 → consumerStep best c = (best, SupEvent.acyclicEvent)) := by
  refine ⟨rfl, ?_, ?_, ?_⟩
  · by_cases h0 : c.num_e = 0
    · simp only [consumerStep, if_pos h0]
      exact le_refl best
    · by_cases hlt : c.num_e < best
      · simp only [consumerStep, if_neg h0, if_pos hlt]
        exact le_of_lt hlt
      · simp only [consumerStep, if_neg h0, if_neg hlt]
        exact le_refl best
  · constructor
    · rintro ⟨n, es, h⟩
      by_cases h0 : c.num_e = 0
      · simp only [consumerStep, if_pos h0] at h
        exact absurd h (by simp)
      · by_cases hlt : c.num_e < best
        · exact ⟨h0, hlt⟩
        · simp only [consumerStep, if_neg h0, if_neg hlt] at h
          exact absurd h (by simp)
    · rintro ⟨h0, hlt⟩
      refine ⟨c.num_e, c.edges, ?_⟩
      simp only [consumerStep, if_neg h0, if_pos hlt]
  · intro h0
    simp only [consumerStep, if_pos h0]

/-! ## Theorems for claims C6, C7 -/

/-- Helper: when the total of the remaining rows keeps the accumulated count
below `b`, the aborting scan completes and returns the exact total. -/
theorem scanAbortAux_complete (E : Nat → Nat → Bool) (ord : List Nat) (b : Nat) :
    ∀ (idxs : List Nat) (acc : Nat),
      acc + (idxs.map (rowHits E ord)).sum < b →
      scanAbortAux E ord b idxs acc = some (acc + (idxs.map (rowHits E ord)).sum) := by
  intro idxs
  induction idxs with
  | nil =>
    intro acc h
    simp [scanAbortAux]
  | cons i rest ih =>
    intro acc h
    have hrest : (acc + rowHits E ord i) + (rest.map (rowHits E ord)).sum < b := by
      simp only [List.map_cons, List.sum_cons] at h
      omega
    have hnab : ¬ (b ≤ acc + rowHits E ord i) := by omega
    simp only [scanAbortAux, if_neg hnab]
    rw [ih (acc + rowHits E ord i) hrest]
    congr 1
    simp only [List.map_cons, List.sum_cons]
    omega

/-- Helper: when the total of the rows reaches `b`, the aborting scan fires
the abort (for a non-empty outer index list). -/
theorem scanAbortAux_abort (E : Nat → Nat → Bool) (ord : List Nat) (b : Nat) :
    ∀ (idxs : List Nat) (acc : Nat), idxs ≠ [] →
      b ≤ acc + (idxs.map (rowHits E ord)).sum →
      scanAbortAux E ord b idxs acc = none := by
  intro idxs
  induction idxs with
  | nil =>
    intro acc hne _
    exact absurd rfl hne
  | cons i rest ih =>
    intro acc _ hge
    by_cases hab : b ≤ acc + rowHits E ord i
    · simp only [scanAbortAux, if_pos hab]
    · have hne2 : rest ≠ [] := by
        intro hrest
        subst hrest
        simp only [List.map_cons, List.map_nil, List.sum_cons, List.sum_nil] at hge
        omega
      have hge2 : b ≤ (acc + rowHits E ord i) + (rest.map (rowHits E ord)).sum := by
        simp only [List.map_cons, List.sum_cons] at hge
        omega
      simp only [scanAbortAux, if_neg hab]
      exact ih (acc + rowHits E ord i) hne2 hge2

/-- C6: for every graph (edge test `E`), every ordering and every local best
`b`, the scan with the early abort produces exactly the same publish/skip
decision as scanning all pairs and comparing the full back-edge count against
`b` (and the capacity cap): the pruning never changes the accept/reject
outcome. -/
theorem early_abort_decision_eq_full (E : Nat → Nat → Bool) (ord : List Nat) (b : Nat) :
    decidePruned E ord b = decideFull E ord b := by
  rcases Nat.lt_or_ge (fullCount E ord) b with hlt | hge
  · have h0 : (0 : Nat) + ((outerIdx ord).map (rowHits E ord)).sum < b := by
      simpa [fullCount] using hlt
    have hs := scanAbortAux_complete E ord b (outerIdx ord) 0 h0
    simp [decidePruned, decideFull, prunedScan, fullCount, hs]
  · by_cases hemp : outerIdx ord = []
    · simp [decidePruned, decideFull, prunedScan, fullCount, hemp, scanAbortAux]
    · have hge0 : b ≤ (0 : Nat) + ((outerIdx ord).map (rowHits E ord)).sum := by
        simpa [fullCount] using hge
      have hs := scanAbortAux_abort E ord b (outerIdx ord) 0 hemp hge0
      have hnlt : ¬ (fullCount E ord < b) := not_lt.mpr hge
      simp [decidePruned, decideFull, prunedScan, hs, hnlt]

/-- C7: removing the collected back-edges leaves the residual graph
consistent with the ordering: every edge of the graph that was not collected
by the pair scan has no pair of positions of the ordering placing its source
after its target. -/
theorem backEdges_residual_consistent (E : Nat → Nat → Bool) (ord : List Nat)
    (u v : Nat) (hE : E u v = true) (hnb : (u, v) ∉ backEdges E ord) :
    ∀ i, i < ord.length → ∀ j, j < i →
      ¬ (ord.getD i 0 = u ∧ ord.getD j 0 = v) := by
  rintro i hi j hj ⟨hu, hv⟩
  apply hnb
  unfold backEdges
  rw [List.mem_flatMap]
  refine ⟨i, List.mem_range.mpr hi, ?_⟩
  rw [List.mem_map]
  refine ⟨j, List.mem_filter.mpr ⟨List.mem_range.mpr hj, ?_⟩, ?_⟩
  · rw [hu, hv]
    exact hE
  · rw [hu, hv]

/-- C7 witness: the theorem applied to the one-edge graph `0 → 1` and the
ordering `[0, 1]`, where the scan collects nothing and indeed no position
pair inverts the edge. -/
theorem backEdges_residual_consistent_witness :
    (fun u v => decide (u = 0 ∧ v = 1)) 0 1 = true ∧
      (0, 1) ∉ backEdges (fun u v => decide (u = 0 ∧ v = 1)) [0, 1] ∧
      (∀ i, i < ([0, 1] : List Nat).length → ∀ j, j < i →
        ¬ (([0, 1] : List Nat).getD i 0 = 0 ∧ ([0, 1] : List Nat).getD j 0 = 1)) :=
  ⟨by decide, by decide,
    backEdges_residual_consistent (fun u v => decide (u = 0 ∧ v = 1)) [0, 1] 0 1
      (by decide) (by decide)⟩

/-- C8 witness: the theorem applied at best 10 with a 3-edge candidate
(non-increase of the best) and with the zero-edge candidate (acyclic
event). -/
theorem consumerStep_monotone_emission_witness :
    (consumerStep 10 (Candidate.mk 3 [(0, 1)])).1 ≤ 10 ∧
      consumerStep 10 (Candidate.mk 0 []) = (10, SupEvent.acyclicEvent) :=
  ⟨(consumerStep_monotone_emission 10 (Candidate.mk 3 [(0, 1)])).2.1,
    (consumerStep_monotone_emission 10 (Candidate.mk 0 [])).2.2.2 rfl⟩

/-- C9: the supervisor truncates the shared-memory object to `BUF_SIZE` (8)
bytes while both programs map `sizeof(Buffer)` bytes of it; the two lengths
differ, and the `sets` slot array starts at or beyond the truncated extent,
so the whole ring-buffer slot array lies outside the bytes the object was
sized to. -/
theorem truncate_size_mismatch :
    truncate_length = 8 ∧
      mapped_length = 588 ∧
      truncate_length ≠ mapped_length ∧
      truncate_length ≤ offsetof_sets := by
  refine ⟨rfl, ?_, ?_, ?_⟩ <;> decide

/-! ## Theorems for claims C4, C5, C10 -/

/-- Helper: the linear scan of `graph_has_edge` decides membership in the
successor array. -/
theorem linearScan_eq_mem (l : List Nat) (t : Nat) :
    linearScan l t = true ↔ t ∈ l := by
  induction l with
  | nil => simp [linearScan]
  | cons x xs ih =>
    by_cases hx : x = t
    · subst hx
      simp [linearScan]
    · simp only [linearScan, if_neg hx, ih, List.mem_cons]
      constructor
      · intro h
        exact Or.inr h
      · rintro (h | h)
        · exact absurd h.symm hx
        · exact h

/-- Helper: in a list sorted ascending, the element at a smaller position is
bounded by the element at a larger position. -/
theorem sorted_getD_le (arr : List Nat) (hs : arr.Sorted (fun a b => a ≤ b))
    {i j : Nat} (hij : i ≤ j) (hj : j < arr.length) :
    arr.getD i 0 ≤ arr.getD j 0 := by
  have hi : i < arr.length := lt_of_le_of_lt hij hj
  rcases Nat.eq_or_lt_of_le hij with heq | hlt
  · subst heq
    exact le_refl _
  · have h := List.pairwise_iff_get.mp hs ⟨i, hi⟩ ⟨j, hj⟩ hlt
    rw [List.getD_eq_getElem arr 0 hi, List.getD_eq_getElem arr 0 hj]
    simpa [List.get_eq_getElem] using h

/-- Helper: the fuel-bounded binary search over a sorted array finds the
target exactly when some position of the searched interval holds it. -/
theorem bsearchGo_correct (target : Nat) (arr : List Nat)
    (hs : arr.Sorted (fun a b => a ≤ b)) :
    ∀ (fuel lo hi : Nat), hi ≤ arr.length → hi - lo ≤ fuel →
      (bsearchGo target arr fuel lo hi = true ↔
        ∃ k, lo ≤ k ∧ k < hi ∧ arr.getD k 0 = target) := by
  intro fuel
  induction fuel with
  | zero =>
    intro lo hi _ hfuel
    constructor
    · intro h
      simp [bsearchGo] at h
    · rintro ⟨k, hk1, hk2, _⟩
      exact (by omega : False).elim
  | succ fuel ih =>
    intro lo hi hle hfuel
    by_cases hlh : lo < hi
    · have hmid1 : lo ≤ (lo + hi) / 2 := by omega
      have hmid2 : (lo + hi) / 2 < hi := by omega
      simp only [bsearchGo, if_pos hlh]
      by_cases hlt : target < arr.getD ((lo + hi) / 2) 0
      · rw [if_pos hlt, ih lo ((lo + hi) / 2) (by omega) (by omega)]
        constructor
        · rintro ⟨k, hk1, hk2, hk3⟩
          exact ⟨k, hk1, by omega, hk3⟩
        · rintro ⟨k, hk1, hk2, hk3⟩
          refine ⟨k, hk1, ?_, hk3⟩
          by_contra hge
          have hmk : (lo + hi) / 2 ≤ k := by omega
          have hle2 := sorted_getD_le arr hs hmk (by omega)
          omega
      · rw [if_neg hlt]
        by_cases hgt : arr.getD ((lo + hi) / 2) 0 < target
        · rw [if_pos hgt, ih ((lo + hi) / 2 + 1) hi (by omega) (by omega)]
          constructor
          · rintro ⟨k, hk1, hk2, hk3⟩
            exact ⟨k, by omega, hk2, hk3⟩
          · rintro ⟨k, hk1, hk2, hk3⟩
            refine ⟨k, ?_, hk2, hk3⟩
            by_contra hlt2
            have hkm : k ≤ (lo + hi) / 2 := by omega
            have hle2 := sorted_getD_le arr hs hkm (by omega)
            omega
        · rw [if_neg hgt]
          have heq : arr.getD ((lo + hi) / 2) 0 = target := by omega
          constructor
          · intro _
            exact ⟨(lo + hi) / 2, hmid1, hmid2, heq⟩
          · intro _
            rfl
    · simp only [bsearchGo, if_neg hlh]
      constructor
      · intro h
        simp at h
      · rintro ⟨k, hk1, hk2, _⟩
        exact (by omega : False).elim

/-- Helper: over a whole sorted array, the `bsearch` call decides
membership. -/
theorem bsearchList_eq_mem (target : Nat) (arr : List Nat)
    (hs : arr.Sorted (fun a b => a ≤ b)) :
    bsearchList target arr = true ↔ target ∈ arr := by
  rw [bsearchList,
    bsearchGo_correct target arr hs arr.length 0 arr.length (le_refl _) (by omega)]
  constructor
  · rintro ⟨k, _, hk2, hk3⟩
    rw [← hk3, List.getD_eq_getElem arr 0 hk2]
    exact List.getElem_mem hk2
  · intro hmem
    obtain ⟨k, hk, hget⟩ := List.mem_iff_getElem.mp hmem
    refine ⟨k, Nat.zero_le _, hk, ?_⟩
    rw [List.getD_eq_getElem arr 0 hk]
    exact hget

/-- Helper: the modelled `qsort` output is sorted ascending. -/
theorem sortSucc_sorted (l : List Nat) : (sortSucc l).Sorted (fun a b => a ≤ b) :=
  List.sorted_insertionSort _ l

/-- Helper: the modelled `qsort` preserves membership. -/
theorem sortSucc_mem (l : List Nat) (t : Nat) : t ∈ sortSucc l ↔ t ∈ l :=
  (List.perm_insertionSort _ l).mem_iff

/-- C5: for every successor record whose sortedness flag is truthful (a flag
set to true means the array is sorted — the invariant of every reachable
record) and every target, `graph_has_edge` returns true exactly when the
target occurs in the successor array; since the linear-scan branch (out-degree
below `BSEARCH_PROMPT_SIZE = 15`) and the sort/binary-search branch
(out-degree 15 or more) are both covered for all out-degrees, the two code
paths agree, threshold boundary included. -/
theorem graph_has_edge_agrees_with_membership (s : Successors) (target : Nat)
    (hinv : s.is_sorted = true → s.list.Sorted (fun a b => a ≤ b)) :
    (graph_has_edge s target).1 = true ↔ target ∈ s.list := by
  by_cases hbig : BSEARCH_PROMPT_SIZE ≤ s.list.length
  · by_cases hflag : s.is_sorted = true
    · simp only [graph_has_edge, if_pos hbig, if_pos hflag]
      exact bsearchList_eq_mem target s.list (hinv hflag)
    · simp only [graph_has_edge, if_pos hbig, if_neg hflag]
      rw [bsearchList_eq_mem target (sortSucc s.list) (sortSucc_sorted s.list)]
      exact sortSucc_mem s.list target
  · simp only [graph_has_edge, if_neg hbig]
    exact linearScan_eq_mem s.list target

/-- C5 witness: the theorem applied to a 15-successor record in reverse order
(binary-search path, sort required) and target 7, which is in the array. -/
theorem graph_has_edge_agrees_with_membership_witness :
    ((Successors.mk (List.range 15).reverse false).is_sorted = true →
        (Successors.mk (List.range 15).reverse false).list.Sorted (fun a b => a ≤ b)) ∧
      ((graph_has_edge (Successors.mk (List.range 15).reverse false) 7).1 = true ↔
        7 ∈ (Successors.mk (List.range 15).reverse false).list) :=
  ⟨by decide,
    graph_has_edge_agrees_with_membership (Successors.mk (List.range 15).reverse false) 7
      (by decide)⟩

/-- C4: evaluation of the code at a failing input for the lazy-sort caching
claim.  On a vertex with 15 successors stored in reverse order and the
sortedness flag cleared (the state `graph_add_edge` leaves behind), the first
binary-search-path query invokes `qsort`, yet the record it leaves in memory
still carries `is_sorted = false` because `graph_has_edge` never sets the
flag after sorting, so the immediately following query on the same vertex
invokes `qsort` again: the sort is not cached and repeated queries re-sort,
contradicting the claim (and the evident purpose of the flag). -/
theorem graph_has_edge_resorts_every_query :
    (graph_has_edge (Successors.mk (List.range 15).reverse false) 0).2.2 = true ∧
      ((graph_has_edge (Successors.mk (List.range 15).reverse false) 0).2.1).is_sorted
        = false ∧
      (graph_has_edge
          ((graph_has_edge (Successors.mk (List.range 15).reverse false) 0).2.1)
          0).2.2 = true := by
  decide

/-- Helper: a successful `graph_add_edge` keeps the vertex count. -/
theorem graph_add_edge_V (g : Graph) (u v : Nat) (g2 : Graph)
    (h : graph_add_edge g u v = some g2) : g2.V = g.V := by
  by_cases hc : u < g.V ∧ v < g.V
  · simp only [graph_add_edge, if_pos hc, Option.some.injEq] at h
    rw [← h]
  · simp only [graph_add_edge, if_neg hc] at h
    exact absurd h (by simp)

/-- Helper: the edge-insertion loop aborts whenever some edge of the list has
an endpoint at or beyond the vertex count. -/
theorem addEdges_none_of_bad (es : List (Nat × Nat)) :
    ∀ (g : Graph), (∃ e ∈ es, g.V ≤ e.1 ∨ g.V ≤ e.2) →
      addEdges g es = none := by
  induction es with
  | nil =>
    rintro g ⟨e, he, _⟩
    exact absurd he (List.not_mem_nil e)
  | cons e rest ih =>
    rintro g ⟨f, hf, hbad⟩
    by_cases hc : e.1 < g.V ∧ e.2 < g.V
    · have hfr : f ∈ rest := by
        rcases List.mem_cons.mp hf with heq | hfr
        · subst heq
          exact absurd hbad (by omega)
        · exact hfr
      simp only [addEdges, graph_add_edge, if_pos hc]
      exact ih _ ⟨f, hfr, hbad⟩
    · simp only [addEdges, graph_add_edge, if_neg hc]

/-- Helper: the edge-insertion loop succeeds when every endpoint is below the
vertex count. -/
theorem addEdges_some_of_good (es : List (Nat × Nat)) :
    ∀ (g : Graph), (∀ e ∈ es, e.1 < g.V ∧ e.2 < g.V) →
      (addEdges g es).isSome = true := by
  induction es with
  | nil =>
    intro g _
    rfl
  | cons e rest ih =>
    intro g hgood
    have hc : e.1 < g.V ∧ e.2 < g.V := hgood e (List.mem_cons_self e rest)
    simp only [addEdges, graph_add_edge, if_pos hc]
    exact ih _ (fun f hf => hgood f (List.mem_cons_of_mem e hf))

/-- C10: the generator creates a graph whose vertex count is the number of
distinct labels of the edge arguments, and `graph_add_edge` asserts both
endpoints below that count; hence an edge list containing a label greater
than or equal to the number of distinct labels makes the construction abort
via assertion failure, while under the precondition that every occurring
label is below the distinct-label count (labels exactly `0..k-1`) every
`graph_add_edge` succeeds. -/
theorem buildGraph_label_range (es : List (Nat × Nat)) :
    ((∃ e ∈ es, numVertices es ≤ e.1 ∨ numVertices es ≤ e.2) → buildGraph es = none) ∧
      ((∀ e ∈ es, e.1 < numVertices es ∧ e.2 < numVertices es) →
        (buildGraph es).isSome = true) := by
  constructor
  · intro h
    exact addEdges_none_of_bad es (graph_create (numVertices es)) h
  · intro h
    exact addEdges_some_of_good es (graph_create (numVertices es)) h

/-- C10 witness: the theorem applied to the edge list `[0-2]` (label 2 with
only 2 distinct labels: assertion abort) and to `[0-1, 1-0]` (labels exactly
`0..1`: construction succeeds). -/
theorem buildGraph_label_range_witness :
    ((∃ e ∈ [((0 : Nat), (2 : Nat))], numVertices [(0, 2)] ≤ e.1 ∨ numVertices [(0, 2)] ≤ e.2) ∧
        buildGraph [(0, 2)] = none) ∧
      ((∀ e ∈ [((0 : Nat), (1 : Nat)), (1, 0)],
          e.1 < numVertices [(0, 1), (1, 0)] ∧ e.2 < numVertices [(0, 1), (1, 0)]) ∧
        (buildGraph [(0, 1), (1, 0)]).isSome = true) :=
  ⟨⟨by decide, (buildGraph_label_range [(0, 2)]).1 (by decide)⟩,
    ⟨by decide, (buildGraph_label_range [(0, 1), (1, 0)]).2 (by decide)⟩⟩

end FbArc
